import Mathlib

/-!
Verification development for the ILD-features repository.

The repository computes two morphometric estimates:
* `fractal_dimension_3D` (src/fractal.py): box-counting fractal dimension of a
  3-D occupancy grid;
* `compute_tortuosity` (src/batch_tortuosity.py and, identically,
  src/per_lobe_tortuosity.py): mean and length-weighted mean tortuosity of a
  skeleton branch table.

The embedding below translates those functions into Lean.  Machine floats are
modelled by exact rationals; the only irrational step of the sources
(`np.linalg.norm`, a square root) is embedded through its defining property
(`IsEuclidCol`), and the IEEE results `nan`/`inf` that arise from float
division by zero are modelled explicitly by the `FloatVal` type.
-/

/- ------------------------------------------------------------------ -/
/- Tortuosity estimator: `compute_tortuosity(df, length_threshold=1e-6)`. -/
/- ------------------------------------------------------------------ -/

/-- One row of the branch table `df`: endpoint coordinates
`coord-src-{0,1,2}`, `coord-dst-{0,1,2}` and the geodesic `branch-distance`
(called `pathLength` here). -/
structure Branch where
  src0 : ℚ
  src1 : ℚ
  src2 : ℚ
  dst0 : ℚ
  dst1 : ℚ
  dst2 : ℚ
  pathLength : ℚ
  deriving DecidableEq, Inhabited

/-- Squared Euclidean distance between the two endpoints of a branch; the code
computes `euclid = np.linalg.norm(xyz_start - xyz_end, axis=1)`, whose square
is exactly this rational. -/
def euclidSq (b : Branch) : ℚ :=
  (b.src0 - b.dst0) ^ 2 + (b.src1 - b.dst1) ^ 2 + (b.src2 - b.dst2) ^ 2

/-- The list `es` is the `euclid-length` column for the branch list `bs`:
entry-wise it is the (nonnegative) square root of `euclidSq`.  This is the
defining property of `np.linalg.norm(..., axis=1)`, whose value is irrational
in general. -/
abbrev IsEuclidCol (bs : List Branch) (es : List ℚ) : Prop :=
  es.length = bs.length ∧
    ∀ i < bs.length, 0 ≤ es.getD i 0 ∧ (es.getD i 0) ^ 2 = euclidSq (bs.getD i default)

/-- A float value as produced by numpy/pandas division: either an ordinary
(finite) number, or one of the non-finite results of dividing by zero. -/
inductive FloatVal where
  | nan : FloatVal
  | inf : FloatVal
  | ninf : FloatVal
  | val : ℚ → FloatVal
  deriving DecidableEq

/-- Float division as numpy performs it on float64 scalars: `0/0` is `nan`,
`x/0` is `±inf` for `x ≠ 0`, otherwise the exact quotient. -/
def fdivQ (a b : ℚ) : FloatVal :=
  if b = 0 then (if a = 0 then .nan else if 0 < a then .inf else .ninf)
  else .val (a / b)

/-- Rows surviving the filter `df[df["euclid-length"] > length_threshold]`,
keeping each branch together with its `euclid-length` entry. -/
def keptRows (bs : List Branch) (es : List ℚ) (thr : ℚ) : List (Branch × ℚ) :=
  (bs.zip es).filter (fun r => thr < r.2)

/-- Per-row tortuosity `branch-distance / euclid-length`. -/
def tortuosityOf (r : Branch × ℚ) : ℚ :=
  r.1.pathLength / r.2

/-- The `tortuosity` column added to the filtered frame `df_tort`. -/
def tortList (bs : List Branch) (es : List ℚ) (thr : ℚ) : List ℚ :=
  (keptRows bs es thr).map tortuosityOf

/-- Embedding of `compute_tortuosity`: returns
`(global_tort_simple, global_tort_weighted)`, i.e.
`(mean of tortuosity, Σ(branch-distance · tortuosity) / Σ branch-distance)`.
An empty pandas sum is `0.0`, an empty mean is `nan`, and the two final
divisions follow float semantics (`fdivQ`). -/
def computeTortuosity (bs : List Branch) (es : List ℚ) (thr : ℚ) :
    FloatVal × FloatVal :=
  let kept := keptRows bs es thr
  let torts := tortList bs es thr
  let weighted :=
    fdivQ ((kept.map (fun r => r.1.pathLength * tortuosityOf r)).sum)
      ((kept.map (fun r => r.1.pathLength)).sum)
  let simple := fdivQ torts.sum (torts.length : ℚ)
  (simple, weighted)

/-- Branch with coincident endpoints: its `euclid-length` is `0`, so the
length filter discards it. -/
def degenBranch : Branch := ⟨0, 0, 0, 0, 0, 0, 5⟩

/-- Branch with separated endpoints (`euclid-length = 1`) but geodesic
`branch-distance = 0`. -/
def zeroPathBranch : Branch := ⟨0, 0, 0, 1, 0, 0, 0⟩

/-- Straight branch of the spec's concrete scenario:
src (0,0,0), dst (0,0,10), path length 10. -/
def b1 : Branch := ⟨0, 0, 0, 0, 0, 10, 10⟩

/-- Curved branch of the spec's concrete scenario:
src (0,0,0), dst (0,0,5), path length 10. -/
def b2 : Branch := ⟨0, 0, 0, 0, 0, 5, 10⟩

/-- C3: on a branch table where no branch survives the euclidean-length
filter (an empty table, or a table whose only branch has coincident
endpoints), and on a table whose retained branches have zero total path
length, `compute_tortuosity` does not fail: it returns normally, producing
`nan` (0.0/0.0 and the empty mean) resp. a value together with `nan` — not a
distinguishable error. -/
theorem C3_code_behavior :
    computeTortuosity [] [] (1 / 1000000) = (FloatVal.nan, FloatVal.nan) ∧
    IsEuclidCol [degenBranch] [0] ∧
    computeTortuosity [degenBranch] [0] (1 / 1000000) = (FloatVal.nan, FloatVal.nan) ∧
    IsEuclidCol [zeroPathBranch] [1] ∧
    computeTortuosity [zeroPathBranch] [1] (1 / 1000000) =
      (FloatVal.val 0, FloatVal.nan) := by
  refine ⟨?_, ⟨rfl, ?_⟩, ?_, ⟨rfl, ?_⟩, ?_⟩
  · norm_num [computeTortuosity, tortList, keptRows, fdivQ]
  · intro i hi
    have hi' : i < 1 := by simpa using hi
    interval_cases i
    · norm_num [euclidSq, degenBranch]
  · norm_num [computeTortuosity, tortList, keptRows, fdivQ, degenBranch, List.filter]
  · intro i hi
    have hi' : i < 1 := by simpa using hi
    interval_cases i
    · norm_num [euclidSq, zeroPathBranch]
  · norm_num [computeTortuosity, tortList, keptRows, fdivQ, tortuosityOf,
      zeroPathBranch, List.filter]

/-- C6: every branch retained by `compute_tortuosity` gets tortuosity
`path_length / euclidean_length`; it is exactly `1` when the two lengths
agree, strictly greater than `1` when the path is longer, and — no clamping —
strictly less than `1` when the path is shorter. -/
theorem C6_tortuosity_ratio (bs : List Branch) (es : List ℚ) (thr : ℚ)
    (hthr : 0 ≤ thr) (r : Branch × ℚ) (hr : r ∈ keptRows bs es thr) :
    tortuosityOf r ∈ tortList bs es thr ∧
    tortuosityOf r = r.1.pathLength / r.2 ∧
    (r.1.pathLength = r.2 → tortuosityOf r = 1) ∧
    (r.2 < r.1.pathLength → 1 < tortuosityOf r) ∧
    (r.1.pathLength < r.2 → tortuosityOf r < 1) := by
  have hpos : 0 < r.2 := by
    have := List.of_mem_filter hr
    have hlt : thr < r.2 := by simpa using this
    exact lt_of_le_of_lt hthr hlt
  refine ⟨List.mem_map_of_mem tortuosityOf hr, rfl, ?_, ?_, ?_⟩
  · intro h
    simp [tortuosityOf, h, div_self (ne_of_gt hpos)]
  · intro h
    exact (one_lt_div hpos).mpr h
  · intro h
    exact (div_lt_one hpos).mpr h

/-- Witness for C6 at a concrete retained branch. -/
theorem C6_witness :
    (0 ≤ (1 : ℚ) / 1000000) ∧
    ((b1, (10 : ℚ)) ∈ keptRows [b1] [10] (1 / 1000000)) ∧
    tortuosityOf (b1, (10 : ℚ)) = 1 := by
  have hmem : (b1, (10 : ℚ)) ∈ keptRows [b1] [10] (1 / 1000000) := by
    have h : keptRows [b1] [10] (1 / 1000000) = [(b1, 10)] := by
      norm_num [keptRows, List.filter]
    rw [h]
    exact List.mem_singleton_self _
  exact ⟨by norm_num, hmem,
    (C6_tortuosity_ratio [b1] [10] (1 / 1000000) (by norm_num) (b1, 10)
      hmem).2.2.1 rfl⟩

/-- C7: on the spec's two-branch scenario the per-branch tortuosities are
`1` and `2`, and both the mean and the weighted tortuosity are `3/2`,
whatever list the (uniquely determined) euclidean-length column is. -/
theorem C7_concrete_scenario (es : List ℚ) (h : IsEuclidCol [b1, b2] es) :
    tortList [b1, b2] es (1 / 1000000) = [1, 2] ∧
    computeTortuosity [b1, b2] es (1 / 1000000) =
      (FloatVal.val (3 / 2), FloatVal.val (3 / 2)) := by
  obtain ⟨hlen, hent⟩ := h
  obtain ⟨x, y, rfl⟩ := List.length_eq_two.mp (by simpa using hlen)
  obtain ⟨hx0, hx2⟩ := hent 0 (by norm_num)
  obtain ⟨hy0, hy2⟩ := hent 1 (by norm_num)
  have hxq : x ^ 2 = 100 := by
    simpa [euclidSq, b1] using hx2
  have hyq : y ^ 2 = 25 := by
    simpa [euclidSq, b2] using hy2
  have hx0' : (0 : ℚ) ≤ x := by simpa using hx0
  have hy0' : (0 : ℚ) ≤ y := by simpa using hy0
  have hx : x = 10 := by
    have hfac : (x - 10) * (x + 10) = 0 := by
      have h' : (x - 10) * (x + 10) = x ^ 2 - 100 := by ring
      rw [h', hxq]; ring
    rcases mul_eq_zero.mp hfac with h' | h'
    · linarith
    · linarith
  have hy : y = 5 := by
    have hfac : (y - 5) * (y + 5) = 0 := by
      have h' : (y - 5) * (y + 5) = y ^ 2 - 25 := by ring
      rw [h', hyq]; ring
    rcases mul_eq_zero.mp hfac with h' | h'
    · linarith
    · linarith
  subst hx hy
  constructor
  · norm_num [tortList, keptRows, tortuosityOf, List.filter, b1, b2]
  · norm_num [computeTortuosity, tortList, keptRows, fdivQ, tortuosityOf,
      List.filter, b1, b2]

/-- Witness for C7 at the actual euclidean-length column `[10, 5]`. -/
theorem C7_witness :
    IsEuclidCol [b1, b2] [10, 5] ∧
    computeTortuosity [b1, b2] [10, 5] (1 / 1000000) =
      (FloatVal.val (3 / 2), FloatVal.val (3 / 2)) := by
  have hcol : IsEuclidCol [b1, b2] [10, 5] := by
    refine ⟨rfl, ?_⟩
    intro i hi
    have hi' : i < 2 := by simpa using hi
    interval_cases i
    · norm_num [euclidSq, b1]
    · norm_num [euclidSq, b2]
  exact ⟨hcol, (C7_concrete_scenario [10, 5] hcol).2⟩

/-- C8 counterexample: a single retained branch (euclidean length 1 > 1e-6)
whose `branch-distance` is 0.  All retained branches trivially have equal
path length, yet the mean tortuosity is the number `0` while the weighted
tortuosity is `nan` (the weighted aggregate divides by the zero path-length
sum), so the two are not equal — the claim fails as stated. -/
theorem C8_counterexample :
    keptRows [zeroPathBranch] [1] (1 / 1000000) ≠ [] ∧
    (∀ r ∈ keptRows [zeroPathBranch] [1] (1 / 1000000), r.1.pathLength = 0) ∧
    (computeTortuosity [zeroPathBranch] [1] (1 / 1000000)).1 ≠
      (computeTortuosity [zeroPathBranch] [1] (1 / 1000000)).2 := by
  have hkept : keptRows [zeroPathBranch] [1] (1 / 1000000) = [(zeroPathBranch, 1)] := by
    norm_num [keptRows, List.filter]
  have hval : computeTortuosity [zeroPathBranch] [1] (1 / 1000000) =
      (FloatVal.val 0, FloatVal.nan) := by
    norm_num [computeTortuosity, tortList, keptRows, fdivQ, tortuosityOf,
      zeroPathBranch, List.filter]
  refine ⟨by rw [hkept]; simp, ?_, by rw [hval]; simp⟩
  intro r hr
  rw [hkept] at hr
  have : r = (zeroPathBranch, 1) := by simpa using hr
  rw [this]
  rfl

/-- C8 amended: if all retained branches have equal and *nonzero* path
length, the weighted tortuosity equals the mean tortuosity. -/
theorem C8_amended_theorem (bs : List Branch) (es : List ℚ) (thr L : ℚ)
    (hthr : 0 ≤ thr) (hL : L ≠ 0)
    (hne : keptRows bs es thr ≠ [])
    (heq : ∀ r ∈ keptRows bs es thr, r.1.pathLength = L) :
    (computeTortuosity bs es thr).1 = (computeTortuosity bs es thr).2 := by
  have hkne : (keptRows bs es thr).length ≠ 0 :=
    fun h => hne (List.length_eq_zero.mp h)
  have hlen : (0 : ℚ) < ((keptRows bs es thr).length : ℚ) := by
    exact_mod_cast Nat.pos_of_ne_zero hkne
  have hwnum :
      ((keptRows bs es thr).map (fun r => r.1.pathLength * tortuosityOf r)).sum =
        L * ((keptRows bs es thr).map tortuosityOf).sum := by
    rw [List.map_congr_left (fun r hr => by rw [heq r hr]), List.sum_map_mul_left]
  have hwden :
      ((keptRows bs es thr).map (fun r => r.1.pathLength)).sum =
        ((keptRows bs es thr).length : ℚ) * L := by
    rw [List.map_congr_left (fun r hr => by rw [heq r hr])]
    rw [List.map_const', List.sum_replicate, nsmul_eq_mul]
  have h1 : (computeTortuosity bs es thr).1 =
      fdivQ ((keptRows bs es thr).map tortuosityOf).sum
        (((keptRows bs es thr).map tortuosityOf).length : ℚ) := rfl
  have h2 : (computeTortuosity bs es thr).2 =
      fdivQ ((keptRows bs es thr).map (fun r => r.1.pathLength * tortuosityOf r)).sum
        (((keptRows bs es thr).map (fun r => r.1.pathLength)).sum) := rfl
  rw [h1, h2, hwnum, hwden, List.length_map]
  have hden : ((keptRows bs es thr).length : ℚ) * L ≠ 0 :=
    mul_ne_zero (ne_of_gt hlen) hL
  simp only [fdivQ, if_neg (ne_of_gt hlen), if_neg hden]
  congr 1
  rw [mul_comm ((keptRows bs es thr).length : ℚ) L,
    mul_div_mul_left _ _ hL]

/-- Witness for C8 (amended) on the two-branch scenario with equal path
lengths 10. -/
theorem C8_witness :
    (0 ≤ (1 : ℚ) / 1000000) ∧ ((10 : ℚ) ≠ 0) ∧
    keptRows [b1, b2] [10, 5] (1 / 1000000) ≠ [] ∧
    (∀ r ∈ keptRows [b1, b2] [10, 5] (1 / 1000000), r.1.pathLength = 10) ∧
    (computeTortuosity [b1, b2] [10, 5] (1 / 1000000)).1 =
      (computeTortuosity [b1, b2] [10, 5] (1 / 1000000)).2 := by
  have hkept : keptRows [b1, b2] [10, 5] (1 / 1000000) = [(b1, 10), (b2, 5)] := by
    norm_num [keptRows, List.filter]
  have hne : keptRows [b1, b2] [10, 5] (1 / 1000000) ≠ [] := by
    rw [hkept]; simp
  have heq : ∀ r ∈ keptRows [b1, b2] [10, 5] (1 / 1000000), r.1.pathLength = 10 := by
    intro r hr
    rw [hkept] at hr
    simp only [List.mem_cons, List.not_mem_nil, or_false] at hr
    rcases hr with rfl | rfl
    · rfl
    · rfl
  exact ⟨by norm_num, by norm_num, hne, heq,
    C8_amended_theorem [b1, b2] [10, 5] (1 / 1000000) 10 (by norm_num)
      (by norm_num) hne heq⟩

/- ------------------------------------------------------------------ -/
/- Fractal dimension estimator: `fractal_dimension_3D` (src/fractal.py). -/
/- ------------------------------------------------------------------ -/

/-- Largest exponent `e ≤ n` with `2 ^ e ≤ n`, i.e. `⌊log2 n⌋` for `n ≥ 1`;
embeds `int(np.floor(np.log2(n)))`.  (The search bound `n` is safe because
`2 ^ e ≤ n` forces `e < 2 ^ e ≤ n`.) -/
def floorLog2 (n : ℕ) : ℕ :=
  Nat.findGreatest (fun e => 2 ^ e ≤ n) n

/-- Exact floor of the real power `2 ^ (p / q)` (for a rational exponent
`p / q` with `q ≥ 1`): the largest `m` with `m ^ q ≤ 2 ^ p`, which for
`p < 0` is `0`.  The search bound `2 ^ (p / q + 1)` is safe because
`m ^ q ≤ 2 ^ p` forces `m ≤ 2 ^ (⌊p / q⌋ + 1)` (proved in
`floorPow2_le_bound` below).  This embeds one entry of
`np.floor(np.logspace(a, b, num, base=2))`, evaluated in exact real
arithmetic. -/
def floorPow2 (p : ℤ) (q : ℕ) : ℕ :=
  if p < 0 then 0
  else Nat.findGreatest (fun m => m ^ q ≤ 2 ^ p.toNat) (2 ^ (p.toNat / q + 1))

/-- Floors of `np.logspace(a, b, num=n, base=2)`: the `k`-th exponent of the
linear schedule from `a` to `b` is exactly `(a * (n-1) + (b-a) * k) / (n-1)`,
carried here as an exact fraction. -/
def logspaceFloor (a b : ℤ) (n : ℕ) : List ℕ :=
  if n = 0 then []
  else if n = 1 then [floorPow2 a 1]
  else (List.range n).map (fun k : ℕ => floorPow2 (a * ((n : ℤ) - 1) + (b - a) * k) (n - 1))

/-- Adjacent deduplication of a sorted list: together with sorting this is
`np.unique`. -/
def dedupSorted : List ℕ → List ℕ
  | [] => []
  | [a] => [a]
  | a :: b :: l => if a = b then dedupSorted (b :: l) else a :: dedupSorted (b :: l)

/-- `np.unique`: sort ascending, then drop duplicates. -/
def uniqueAsc (l : List ℕ) : List ℕ :=
  dedupSorted (l.insertionSort (· ≤ ·))

/-- Smallest entry of `array.shape`, i.e. `np.min(array.shape)`. -/
def min3 (shape : ℕ × ℕ × ℕ) : ℕ :=
  min shape.1 (min shape.2.1 shape.2.2)

/-- The top exponent of the scale schedule: the given `max_box_size`, or
`int(np.floor(np.log2(np.min(array.shape))))` when absent. -/
def expTop (shape : ℕ × ℕ × ℕ) (maxB : Option ℤ) : ℤ :=
  maxB.getD (floorLog2 (min3 shape) : ℤ)

/-- Lines 11-15 of src/fractal.py: the deduplicated scale schedule
`np.unique(np.floor(np.logspace(max_box_size, min_box_size, n_samples, base=2)))`.
Note `np.unique` returns the scales sorted *ascending*. -/
def scalesFor (shape : ℕ × ℕ × ℕ) (maxB : Option ℤ) (minB : ℤ) (nS : ℕ) : List ℕ :=
  uniqueAsc (logspaceFloor (expTop shape maxB) minB nS)

/-- `np.arange(0, extent, s)`: multiples of `s` strictly below `extent`. -/
def arange (extent s : ℕ) : List ℕ :=
  if extent = 0 then [] else (List.range ((extent - 1) / s + 1)).map (· * s)

/-- Line 33-34 of src/fractal.py: per-axis bin edges
`np.hstack([0 - offset, np.arange(0, extent, scale) + offset])`. -/
def binEdges (extent s : ℕ) (o : ℚ) : List ℚ :=
  (0 - o) :: (arange extent s).map (fun e : ℕ => (e : ℚ) + o)

/-- One-axis bin assignment of `np.histogramdd`: `searchsorted(edges, x,
side=right)` (the count of edges `≤ x`), a point equal to the last edge is
moved one bin left, and only the inner bins `1 … len(edges) - 1` are kept
(the two outer slabs are stripped by the `hist[core]` slicing). -/
def binIndex (es : List ℚ) (x : ℚ) : Option ℕ :=
  let b0 := es.countP (fun e => decide (e ≤ x))
  let b := if es.getLast? = some x then b0 - 1 else b0
  if 1 ≤ b ∧ b + 1 ≤ es.length then some (b - 1) else none

/-- The 3-D bin of a voxel: its three per-axis bins, or `none` when the voxel
falls outside the binned range on some axis. -/
def boxIndex (shape : ℕ × ℕ × ℕ) (s : ℕ) (o : ℚ) (v : ℕ × ℕ × ℕ) :
    Option (ℕ × ℕ × ℕ) :=
  match binIndex (binEdges shape.1 s o) (v.1 : ℚ),
      binIndex (binEdges shape.2.1 s o) (v.2.1 : ℚ),
      binIndex (binEdges shape.2.2 s o) (v.2.2 : ℚ) with
  | some i, some j, some k => some (i, j, k)
  | _, _, _ => none

/-- Line 35-36 of src/fractal.py: `np.sum(histogramdd(voxels, bins) > 0)`,
the number of distinct occupied boxes at one scale and offset. -/
def boxCount (voxels : List (ℕ × ℕ × ℕ)) (shape : ℕ × ℕ × ℕ) (s : ℕ) (o : ℚ) : ℕ :=
  ((voxels.filterMap (boxIndex shape s o)).dedup).length

/-- `np.linspace(a, b, n)`. -/
def linspaceQ (a b : ℚ) (n : ℕ) : List ℚ :=
  if n = 0 then []
  else if n = 1 then [a]
  else (List.range n).map (fun k : ℕ => a + (b - a) * k / ((n : ℚ) - 1))

/-- Lines 27-30 of src/fractal.py: the offsets evaluated at a scale —
`[0]` when `n_offsets == 0`, else `np.linspace(0, scale, n_offsets)`. -/
def offsetsFor (nOff s : ℕ) : List ℚ :=
  if nOff = 0 then [0] else linspaceQ 0 (s : ℚ) nOff

/-- Line 40 of src/fractal.py: `Ns.min(axis=1)`, the minimum box count over
the evaluated offsets of one scale. -/
def minCount (voxels : List (ℕ × ℕ × ℕ)) (shape : ℕ × ℕ × ℕ) (nOff s : ℕ) : ℕ :=
  (((offsetsFor nOff s).map (fun o => boxCount voxels shape s o)).min?).getD 0

/-- Line 42 of src/fractal.py: `np.min(scales[Ns == x])`, the smallest scale
whose count equals `x` (paired scale/count lists). -/
def minScaleFor (scales Ns : List ℕ) (c : ℕ) : ℕ :=
  (((scales.zip Ns).filter (fun p => p.2 = c)).map Prod.fst).min?.getD 0

/-- Lines 42-46 of src/fractal.py, the scale-reduction step:
`scales = [min(scales[Ns == x]) for x in unique(Ns)]`, then
`Ns = unique(Ns)`, `Ns = Ns[Ns > 0]`, `scales = scales[:len(Ns)]`. -/
def reduceStep (scales Ns : List ℕ) : List ℕ × List ℕ :=
  let uNs := uniqueAsc Ns
  let scales2 := uNs.map (minScaleFor scales Ns)
  let Ns2 := uNs.filter (fun n => 0 < n)
  (scales2.take Ns2.length, Ns2)

/-- Parameters of `fractal_dimension_3D` (the `plot` flag is a pure side
channel and is omitted). -/
structure FracParams where
  maxBoxSize : Option ℤ
  minBoxSize : ℤ
  nSamples : ℕ
  nOffsets : ℕ

/-- The default parameter set `max_box_size=None, min_box_size=1,
n_samples=20, n_offsets=0`. -/
def defaultParams : FracParams := ⟨none, 1, 20, 0⟩

/-- The (scale, count) pairs that `fractal_dimension_3D` passes to
`np.polyfit`, or `error` when the function raises instead of fitting:
`np.arange` raises on a zero scale step, `np.histogramdd` raises on the empty
coordinate array (`array([])` has the wrong dimensionality), and `np.polyfit`
raises `TypeError` on an empty input vector.  When the fit input is nonempty,
`np.polyfit` returns a finite slope computed from exactly these pairs (for a
single pair it emits only a `RankWarning` and still returns the minimum-norm
solution). -/
def fractalPairsCore (shape : ℕ × ℕ × ℕ) (voxels : List (ℕ × ℕ × ℕ))
    (p : FracParams) : Except Unit (List (ℕ × ℕ)) :=
  let scales := scalesFor shape p.maxBoxSize p.minBoxSize p.nSamples
  if 0 ∈ scales then .error ()
  else if voxels = [] then .error ()
  else
    let Ns := scales.map (minCount voxels shape p.nOffsets)
    let r := reduceStep scales Ns
    if r.2 = [] then .error () else .ok (r.1.zip r.2)

/-- A 3-D array: its shape and its (rational-valued) cells; the estimator
reads cells only inside the shape. -/
structure Grid where
  shape : ℕ × ℕ × ℕ
  cell : ℕ → ℕ → ℕ → ℚ

/-- Line 18-19 of src/fractal.py: `np.where(array > 0)` zipped into
coordinate triples, in C (lexicographic) order. -/
def voxelsOf (g : Grid) : List (ℕ × ℕ × ℕ) :=
  (List.range g.shape.1).flatMap (fun i =>
    (List.range g.shape.2.1).flatMap (fun j =>
      (List.range g.shape.2.2).filterMap (fun k =>
        if 0 < g.cell i j k then some (i, j, k) else none)))

/-- `fractal_dimension_3D` on an array: the fit input (or raised error)
produced from its shape and its positive cells. -/
def fractalPairs (g : Grid) (p : FracParams) : Except Unit (List (ℕ × ℕ)) :=
  fractalPairsCore g.shape (voxelsOf g) p

/- Pure-arithmetic form of the box counter at offset 0, used to evaluate the
pipeline (rational arithmetic is opaque to kernel reduction). -/

/-- Number of whole steps of size `s` fitting strictly inside `extent`:
`np.arange(0, extent, s)` has entries `0, s, …, natM extent s * s`. -/
def natM (extent s : ℕ) : ℕ := (extent - 1) / s

/-- Closed form of the offset-0 per-axis bin of a voxel coordinate `x`:
counted iff `x` is at most the last edge `natM * s`; the first real bin is
index 1 (index 0 is the empty slab `[-0, 0)`), and the last bin is closed. -/
def natBin (extent s x : ℕ) : Option ℕ :=
  if x ≤ natM extent s * s then some (min (x / s + 1) (natM extent s)) else none

/-- Offset-0 3-D bin in closed form. -/
def natBoxIndex (shape : ℕ × ℕ × ℕ) (s : ℕ) (v : ℕ × ℕ × ℕ) :
    Option (ℕ × ℕ × ℕ) :=
  match natBin shape.1 s v.1, natBin shape.2.1 s v.2.1, natBin shape.2.2 s v.2.2 with
  | some i, some j, some k => some (i, j, k)
  | _, _, _ => none

/-- Offset-0 box count in closed form. -/
def natBoxCount (voxels : List (ℕ × ℕ × ℕ)) (shape : ℕ × ℕ × ℕ) (s : ℕ) : ℕ :=
  ((voxels.filterMap (natBoxIndex shape s)).dedup).length

lemma countP_range_le (n t : ℕ) :
    (List.range n).countP (fun k => decide (k ≤ t)) = min (t + 1) n := by
  induction n with
  | zero => simp
  | succ n ih =>
    rw [List.range_succ, List.countP_append, ih]
    by_cases h : n ≤ t
    · simp only [List.countP_cons, List.countP_nil, decide_eq_true_eq, h, if_true]
      omega
    · simp only [List.countP_cons, List.countP_nil, decide_eq_true_eq, h, if_false]
      omega

lemma binEdges_zero (extent s : ℕ) (he : 0 < extent) :
    binEdges extent s 0 =
      (0 : ℚ) :: (List.range (natM extent s + 1)).map (fun k => ((k * s : ℕ) : ℚ)) := by
  unfold binEdges arange natM
  rw [if_neg (Nat.pos_iff_ne_zero.mp he), List.map_map]
  congr 1
  · norm_num
  · apply List.map_congr_left
    intro a _
    simp only [Function.comp_apply]
    rw [add_zero]

lemma natBin_shape (s x M : ℕ) (hs : 0 < s) :
    (if 1 ≤ (if M * s = x then min (x / s + 1) (M + 1) + 1 - 1 else min (x / s + 1) (M + 1) + 1) ∧
        (if M * s = x then min (x / s + 1) (M + 1) + 1 - 1 else min (x / s + 1) (M + 1) + 1) + 1 ≤
          M + 2
      then some ((if M * s = x then min (x / s + 1) (M + 1) + 1 - 1
                  else min (x / s + 1) (M + 1) + 1) - 1)
      else none) =
    (if x ≤ M * s then some (min (x / s + 1) M) else none) := by
  by_cases hx : M * s = x
  · have hxs : x / s = M := by rw [← hx]; exact Nat.mul_div_cancel M hs
    have hc1 : 1 ≤ M + 1 + 1 - 1 ∧ M + 1 + 1 - 1 + 1 ≤ M + 2 := by omega
    rw [if_pos hx, hxs, min_self, if_pos hc1, if_pos (le_of_eq hx.symm)]
    congr 1
    omega
  · by_cases hlt : x < M * s
    · have hds : x / s < M := (Nat.div_lt_iff_lt_mul hs).mpr hlt
      have hm1 : x / s + 1 ≤ M + 1 := by omega
      have hm2 : x / s + 1 ≤ M := by omega
      have hc1 : 1 ≤ x / s + 1 + 1 ∧ x / s + 1 + 1 + 1 ≤ M + 2 :=
        ⟨Nat.le_add_left 1 _, by omega⟩
      rw [if_neg hx, min_eq_left hm1, if_pos hc1, if_pos (le_of_lt hlt), min_eq_left hm2]
      congr 1
    · have hge : M * s ≤ x := Nat.le_of_not_lt hlt
      have hds : M ≤ x / s := (Nat.le_div_iff_mul_le hs).mpr hge
      have hm1 : M + 1 ≤ x / s + 1 := by omega
      have hc1 : ¬ (1 ≤ M + 1 + 1 ∧ M + 1 + 1 + 1 ≤ M + 2) := by omega
      have hc2 : ¬ (x ≤ M * s) := by omega
      rw [if_neg hx, min_eq_right hm1, if_neg hc1, if_neg hc2]

/-- At offset 0, the histogram bin of an integer coordinate has the closed
form `natBin`. -/
lemma binIndex_zero (extent s x : ℕ) (hs : 0 < s) (he : 0 < extent) :
    binIndex (binEdges extent s 0) (x : ℚ) = natBin extent s x := by
  obtain ⟨M, hM⟩ : ∃ M, natM extent s = M := ⟨_, rfl⟩
  set f : ℕ → ℚ := fun k => ((k * s : ℕ) : ℚ) with hf
  rw [binEdges_zero extent s he, hM, ← hf]
  have hlast : ((0 : ℚ) :: (List.range (M + 1)).map f).getLast? = some (f M) := by
    rw [List.range_succ, List.map_append, List.map_singleton, ← List.cons_append]
    exact List.getLast?_concat _
  have hcount : ((0 : ℚ) :: (List.range (M + 1)).map f).countP
      (fun e => decide (e ≤ (x : ℚ))) = min (x / s + 1) (M + 1) + 1 := by
    rw [List.countP_cons, List.countP_map]
    have hzero : (decide ((0 : ℚ) ≤ (x : ℚ))) = true :=
      decide_eq_true (Nat.cast_nonneg x)
    rw [hzero, if_pos rfl]
    congr 1
    have hpred : ∀ a ∈ List.range (M + 1),
        (((fun e => decide (e ≤ (x : ℚ))) ∘ f) a = true ↔
          (fun k => decide (k ≤ x / s)) a = true) := by
      intro a _
      simp only [Function.comp_apply, hf, decide_eq_true_eq]
      rw [Nat.cast_le, Nat.le_div_iff_mul_le hs]
    rw [List.countP_congr hpred, countP_range_le]
  have hlen : ((0 : ℚ) :: (List.range (M + 1)).map f).length = M + 2 := by simp
  have hlastx : (((0 : ℚ) :: (List.range (M + 1)).map f).getLast? = some (x : ℚ)) ↔
      M * s = x := by
    rw [hlast, Option.some_inj, hf, Nat.cast_inj]
  unfold binIndex natBin
  rw [hM]
  simp only [hcount, hlen, hlastx]
  exact natBin_shape s x M hs

lemma filterMap_congr_mem {α β : Type} (l : List α) (f g : α → Option β)
    (h : ∀ a ∈ l, f a = g a) : l.filterMap f = l.filterMap g := by
  induction l with
  | nil => rfl
  | cons a l ih =>
    rw [List.filterMap_cons, List.filterMap_cons, h a (List.mem_cons_self a l),
      ih (fun b hb => h b (List.mem_cons_of_mem a hb))]

/-- At offset 0 the 3-D bin of a voxel has the closed form `natBoxIndex`. -/
lemma boxIndex_zero (shape : ℕ × ℕ × ℕ) (s : ℕ) (v : ℕ × ℕ × ℕ) (hs : 0 < s)
    (h1 : 0 < shape.1) (h2 : 0 < shape.2.1) (h3 : 0 < shape.2.2) :
    boxIndex shape s 0 v = natBoxIndex shape s v := by
  unfold boxIndex natBoxIndex
  rw [binIndex_zero shape.1 s v.1 hs h1, binIndex_zero shape.2.1 s v.2.1 hs h2,
    binIndex_zero shape.2.2 s v.2.2 hs h3]

/-- With offsets disabled (`n_offsets = 0`), the per-scale minimum box count
is the offset-0 box count, in closed form. -/
lemma minCount_zero (voxels : List (ℕ × ℕ × ℕ)) (shape : ℕ × ℕ × ℕ) (s : ℕ)
    (hs : 0 < s) (h1 : 0 < shape.1) (h2 : 0 < shape.2.1) (h3 : 0 < shape.2.2) :
    minCount voxels shape 0 s = natBoxCount voxels shape s := by
  have hm : minCount voxels shape 0 s = boxCount voxels shape s 0 := rfl
  rw [hm]
  unfold boxCount natBoxCount
  rw [filterMap_congr_mem voxels _ _
    (fun v _ => boxIndex_zero shape s v hs h1 h2 h3)]

/-- Offset-0 specialization of the pipeline, used to evaluate it on concrete
grids. -/
def natPairs (shape : ℕ × ℕ × ℕ) (voxels : List (ℕ × ℕ × ℕ)) (maxB : Option ℤ)
    (minB : ℤ) (nS : ℕ) : Except Unit (List (ℕ × ℕ)) :=
  let scales := scalesFor shape maxB minB nS
  if 0 ∈ scales then .error ()
  else if voxels = [] then .error ()
  else
    let Ns := scales.map (natBoxCount voxels shape)
    let r := reduceStep scales Ns
    if r.2 = [] then .error () else .ok (r.1.zip r.2)

lemma fractalPairsCore_zero (shape : ℕ × ℕ × ℕ) (voxels : List (ℕ × ℕ × ℕ))
    (maxB : Option ℤ) (minB : ℤ) (nS : ℕ)
    (h1 : 0 < shape.1) (h2 : 0 < shape.2.1) (h3 : 0 < shape.2.2)
    (hsc : ∀ s ∈ scalesFor shape maxB minB nS, 0 < s) :
    fractalPairsCore shape voxels ⟨maxB, minB, nS, 0⟩ =
      natPairs shape voxels maxB minB nS := by
  unfold fractalPairsCore natPairs
  simp only
  rw [List.map_congr_left
    (fun s hs => minCount_zero voxels shape s (hsc s hs) h1 h2 h3)]

/-- The 8×8×8 all-zero occupancy grid. -/
def gridEmpty : Grid := ⟨(8, 8, 8), fun _ _ _ => 0⟩

/-- An 8×8×8 grid with a single occupied voxel at the origin. -/
def gridSingle : Grid := ⟨(8, 8, 8), fun i j k => if i = 0 ∧ j = 0 ∧ k = 0 then 1 else 0⟩

/-- An 8×8×8 grid occupied exactly at (1,1,1) and (5,5,5). -/
def gridTwo : Grid :=
  ⟨(8, 8, 8), fun i j k =>
    if (i = 1 ∧ j = 1 ∧ k = 1) ∨ (i = 5 ∧ j = 5 ∧ k = 5) then 1 else 0⟩

/-- An 8×8×8 grid with a single occupied voxel at the far corner (7,7,7). -/
def gridCorner : Grid := ⟨(8, 8, 8), fun i j k => if i = 7 ∧ j = 7 ∧ k = 7 then 1 else 0⟩

/-- C2: `fractal_dimension_3D` on the 8×8×8 grid with one voxel at the
origin (default parameters) does *not* raise a degenerate-input error: the
reduction collapses every scale to the single point (2, 1), and `np.polyfit`
on that single point returns a numeric slope (only a `RankWarning` is
emitted).  On the all-zero volume the function does raise (the empty
coordinate array makes `np.histogramdd` fail), so only the near-empty case
contradicts the claim. -/
theorem C2_code_behavior :
    fractalPairs gridSingle defaultParams = Except.ok [(2, 1)] ∧
    fractalPairs gridEmpty defaultParams = Except.error () := by
  have hd : ∀ s ∈ scalesFor (8, 8, 8) none 1 20, 0 < s := by decide
  constructor
  · have h := fractalPairsCore_zero (8, 8, 8) (voxelsOf gridSingle) none 1 20
      (by norm_num) (by norm_num) (by norm_num) hd
    show fractalPairsCore (8, 8, 8) (voxelsOf gridSingle) ⟨none, 1, 20, 0⟩ = _
    rw [h]
    rfl
  · have h := fractalPairsCore_zero (8, 8, 8) (voxelsOf gridEmpty) none 1 20
      (by norm_num) (by norm_num) (by norm_num) hd
    show fractalPairsCore (8, 8, 8) (voxelsOf gridEmpty) ⟨none, 1, 20, 0⟩ = _
    rw [h]
    rfl

/-- C1 counterexample: on the 8×8×8 grid occupied at (1,1,1) and (5,5,5)
with default parameters, the per-scale minimum counts are
`[2, 2, 1, 1, 1, 1, 0]` for scales `[2, …, 8]`.  Scale 8 has count 0, yet the
fit input is `[(8, 1), (4, 2)]`: the zero-count scale 8 is *not* discarded
(it is paired with count 1, whose smallest producing scale is 4), because the
code truncates the scale list from the wrong end. -/
theorem C1_counterexample :
    fractalPairs gridTwo defaultParams = Except.ok [(8, 1), (4, 2)] ∧
    8 ∈ scalesFor (8, 8, 8) none 1 20 ∧
    minCount (voxelsOf gridTwo) (8, 8, 8) 0 8 = 0 ∧
    minCount (voxelsOf gridTwo) (8, 8, 8) 0 4 = 1 ∧
    minCount (voxelsOf gridTwo) (8, 8, 8) 0 2 = 2 := by
  have hd : ∀ s ∈ scalesFor (8, 8, 8) none 1 20, 0 < s := by decide
  refine ⟨?_, by decide, ?_, ?_, ?_⟩
  · have h := fractalPairsCore_zero (8, 8, 8) (voxelsOf gridTwo) none 1 20
      (by norm_num) (by norm_num) (by norm_num) hd
    show fractalPairsCore (8, 8, 8) (voxelsOf gridTwo) ⟨none, 1, 20, 0⟩ = _
    rw [h]
    rfl
  · rw [minCount_zero _ _ _ (by norm_num) (by norm_num) (by norm_num) (by norm_num)]
    decide
  · rw [minCount_zero _ _ _ (by norm_num) (by norm_num) (by norm_num) (by norm_num)]
    decide
  · rw [minCount_zero _ _ _ (by norm_num) (by norm_num) (by norm_num) (by norm_num)]
    decide

/-- C5 counterexample: a single voxel at the far corner (7,7,7) of an 8×8×8
grid, offsets disabled.  At scale 7 the voxel lies on the last bin edge and
is counted (count 1), but at the smaller scale 2 the binned range stops at
edge 6 and the voxel falls outside (count 0): the count *decreases* as the
scale decreases, refuting monotonicity. -/
theorem C5_counterexample :
    7 ∈ scalesFor (8, 8, 8) none 1 20 ∧ 2 ∈ scalesFor (8, 8, 8) none 1 20 ∧
    minCount (voxelsOf gridCorner) (8, 8, 8) 0 7 = 1 ∧
    minCount (voxelsOf gridCorner) (8, 8, 8) 0 2 = 0 ∧
    ¬ (minCount (voxelsOf gridCorner) (8, 8, 8) 0 7 ≤
        minCount (voxelsOf gridCorner) (8, 8, 8) 0 2) := by
  have h7 : minCount (voxelsOf gridCorner) (8, 8, 8) 0 7 = 1 := by
    rw [minCount_zero _ _ _ (by norm_num) (by norm_num) (by norm_num) (by norm_num)]
    decide
  have h2 : minCount (voxelsOf gridCorner) (8, 8, 8) 0 2 = 0 := by
    rw [minCount_zero _ _ _ (by norm_num) (by norm_num) (by norm_num) (by norm_num)]
    decide
  refine ⟨by decide, by decide, h7, h2, ?_⟩
  rw [h7, h2]
  omega

/-- Order-preserving deduplication, keeping the first occurrence of each
value (helper for the spec-side scale schedule). -/
def dedupFirstAux (seen : List ℕ) : List ℕ → List ℕ
  | [] => []
  | a :: l => if a ∈ seen then dedupFirstAux seen l else a :: dedupFirstAux (a :: seen) l

/-- Deduplicate while preserving the order of the list (first occurrences
survive). -/
def dedupKeepFirst (l : List ℕ) : List ℕ := dedupFirstAux [] l

/-- Claim-side schedule, following the spec's words: generate the
geometrically spaced values from `2^max_box_size` down to `2^min_box_size`,
floor each, then deduplicate *while preserving descending order*. -/
def specScalesDescending (shape : ℕ × ℕ × ℕ) (maxB : Option ℤ) (minB : ℤ)
    (nS : ℕ) : List ℕ :=
  dedupKeepFirst (logspaceFloor (expTop shape maxB) minB nS)

/-- C4 counterexample: for the 8×8×8 shape with default parameters the code's
schedule (`np.unique`) is ascending `[2, …, 8]`, not the descending
`[8, …, 2]` the claim describes. -/
theorem C4_counterexample :
    scalesFor (8, 8, 8) none 1 20 = [2, 3, 4, 5, 6, 7, 8] ∧
    specScalesDescending (8, 8, 8) none 1 20 = [8, 7, 6, 5, 4, 3, 2] ∧
    scalesFor (8, 8, 8) none 1 20 ≠ specScalesDescending (8, 8, 8) none 1 20 := by
  refine ⟨by decide, by decide, by decide⟩

lemma mem_dedupSorted : ∀ (l : List ℕ) (a : ℕ), a ∈ dedupSorted l ↔ a ∈ l
  | [], a => by simp [dedupSorted]
  | [b], a => by simp [dedupSorted]
  | b :: c :: l, a => by
    by_cases h : b = c
    · rw [dedupSorted, if_pos h, mem_dedupSorted (c :: l) a]
      subst h
      simp [List.mem_cons]
    · rw [dedupSorted, if_neg h]
      simp only [List.mem_cons]
      rw [mem_dedupSorted (c :: l) a, List.mem_cons]

lemma sorted_dedupSorted : ∀ {l : List ℕ}, l.Sorted (· ≤ ·) →
    (dedupSorted l).Sorted (· < ·)
  | [], _ => by simp [dedupSorted]
  | [a], _ => by simp [dedupSorted]
  | a :: b :: l, hs => by
    obtain ⟨hav, hs'⟩ := List.sorted_cons.mp hs
    by_cases h : a = b
    · rw [dedupSorted, if_pos h]
      exact sorted_dedupSorted hs'
    · rw [dedupSorted, if_neg h]
      refine List.sorted_cons.mpr ⟨?_, sorted_dedupSorted hs'⟩
      intro c hc
      have hcm : c ∈ b :: l := (mem_dedupSorted (b :: l) c).mp hc
      have hbc : b ≤ c := by
        rcases List.mem_cons.mp hcm with rfl | hcl
        · exact le_refl c
        · exact (List.sorted_cons.mp hs').1 c hcl
      have hb : a ≤ b := hav b (List.mem_cons_self b l)
      omega

lemma dedupSorted_eq_self : ∀ {l : List ℕ}, l.Sorted (· < ·) → dedupSorted l = l
  | [], _ => by simp [dedupSorted]
  | [a], _ => by simp [dedupSorted]
  | a :: b :: l, hs => by
    have hab : a < b := (List.sorted_cons.mp hs).1 b (List.mem_cons_self b l)
    rw [dedupSorted, if_neg (by omega), dedupSorted_eq_self (List.sorted_cons.mp hs).2]

lemma uniqueAsc_sorted (l : List ℕ) : (uniqueAsc l).Sorted (· < ·) :=
  sorted_dedupSorted (List.sorted_insertionSort _ l)

lemma mem_uniqueAsc {a : ℕ} {l : List ℕ} : a ∈ uniqueAsc l ↔ a ∈ l :=
  (mem_dedupSorted _ a).trans (List.perm_insertionSort _ l).mem_iff

lemma uniqueAsc_eq_self {l : List ℕ} (hl : l.Sorted (· < ·)) : uniqueAsc l = l := by
  unfold uniqueAsc
  rw [List.Sorted.insertionSort_eq (hl.imp le_of_lt), dedupSorted_eq_self hl]

lemma minScaleFor_cons_self (s : ℕ) (ss : List ℕ) (c : ℕ) (l : List ℕ) (hc : c ∉ l) :
    minScaleFor (s :: ss) (c :: l) c = s := by
  unfold minScaleFor
  rw [List.zip_cons_cons, List.filter_cons_of_pos (by simp)]
  rw [List.filter_eq_nil_iff.mpr ?_]
  · rfl
  · intro p hp
    have : p.2 ∈ l := (List.of_mem_zip hp).2
    simp only [decide_eq_true_eq]
    intro he
    exact hc (he ▸ this)

lemma minScaleFor_cons_ne (s : ℕ) (ss : List ℕ) (c : ℕ) (l : List ℕ) (c' : ℕ)
    (h : c ≠ c') :
    minScaleFor (s :: ss) (c :: l) c' = minScaleFor ss l c' := by
  unfold minScaleFor
  rw [List.zip_cons_cons, List.filter_cons_of_neg (by simpa using h)]

lemma map_minScaleFor : ∀ (l ss : List ℕ), l.Nodup → ss.length = l.length →
    l.map (minScaleFor ss l) = ss
  | [], [], _, _ => rfl
  | [], s :: ss, _, hlen => by simp at hlen
  | c :: l, [], _, hlen => by simp at hlen
  | c :: l, s :: ss, hnd, hlen => by
    have hc : c ∉ l := (List.nodup_cons.mp hnd).1
    have hnd' : l.Nodup := (List.nodup_cons.mp hnd).2
    have hlen' : ss.length = l.length := by simpa using hlen
    rw [List.map_cons, minScaleFor_cons_self s ss c l hc]
    congr 1
    rw [List.map_congr_left
      (fun c' hc' => minScaleFor_cons_ne s ss c l c' (fun he => hc (he ▸ hc')))]
    exact map_minScaleFor l ss hnd' hlen'

/-- C9: the scale-reduction step of `fractal_dimension_3D` (lines 42-46 of
src/fractal.py) is idempotent: its output — counts deduplicated, sorted and
positive, with a scale list of matching length — is a fixed point of the
step, for every input pair of parallel lists. -/
theorem C9_reduction_idempotent (scales Ns : List ℕ) :
    reduceStep (reduceStep scales Ns).1 (reduceStep scales Ns).2 = reduceStep scales Ns := by
  have hsorted : ((uniqueAsc Ns).filter (fun n => 0 < n)).Sorted (· < ·) :=
    (uniqueAsc_sorted Ns).filter _
  have hfst : reduceStep scales Ns =
      (((uniqueAsc Ns).map (minScaleFor scales Ns)).take
        ((uniqueAsc Ns).filter (fun n => 0 < n)).length,
       (uniqueAsc Ns).filter (fun n => 0 < n)) := rfl
  rw [hfst]
  have hu : uniqueAsc ((uniqueAsc Ns).filter (fun n => 0 < n)) =
      (uniqueAsc Ns).filter (fun n => 0 < n) := uniqueAsc_eq_self hsorted
  have hpos : ((uniqueAsc Ns).filter (fun n => 0 < n)).filter (fun n => 0 < n) =
      (uniqueAsc Ns).filter (fun n => 0 < n) := by
    rw [List.filter_filter]
    apply List.filter_congr
    intro a _
    simp
  have hlenS2 : (((uniqueAsc Ns).map (minScaleFor scales Ns)).take
      ((uniqueAsc Ns).filter (fun n => 0 < n)).length).length =
      ((uniqueAsc Ns).filter (fun n => 0 < n)).length := by
    rw [List.length_take, List.length_map]
    exact min_eq_left (List.length_filter_le _ _)
  have hnd : ((uniqueAsc Ns).filter (fun n => 0 < n)).Nodup :=
    hsorted.imp (fun h => Nat.ne_of_lt h)
  unfold reduceStep
  simp only [hu, hpos]
  rw [map_minScaleFor _ _ hnd hlenS2, List.take_of_length_le (le_of_eq hlenS2)]

lemma lt_div_succ_mul (a q : ℕ) (hq : 0 < q) : a < (a / q + 1) * q :=
  (Nat.div_lt_iff_lt_mul hq).mp (Nat.lt_succ_self _)

lemma floorPow2_le_bound (m a q : ℕ) (hq : 0 < q) (hm : m ^ q ≤ 2 ^ a) :
    m ≤ 2 ^ (a / q + 1) := by
  by_contra hgt
  push_neg at hgt
  have h1 : (2 ^ (a / q + 1)) ^ q < m ^ q :=
    Nat.pow_lt_pow_left hgt (Nat.pos_iff_ne_zero.mp hq)
  have h2 : (2 ^ (a / q + 1)) ^ q = 2 ^ ((a / q + 1) * q) := by
    rw [← pow_mul]
  have h3 : a < (a / q + 1) * q := lt_div_succ_mul a q hq
  have h4 : (2 : ℕ) ^ a < 2 ^ ((a / q + 1) * q) :=
    Nat.pow_lt_pow_right (by norm_num) h3
  omega

lemma floorPow2_spec (p : ℤ) (q : ℕ) (hq : 0 < q) (hp : ¬ p < 0) :
    (floorPow2 p q) ^ q ≤ 2 ^ p.toNat := by
  unfold floorPow2
  rw [if_neg hp]
  by_cases hz : Nat.findGreatest (fun m => m ^ q ≤ 2 ^ p.toNat) (2 ^ (p.toNat / q + 1)) = 0
  · rw [hz, zero_pow hq.ne']
    exact Nat.zero_le _
  · exact (Nat.findGreatest_eq_iff.1 rfl).2.1 hz

lemma floorPow2_mono (p p' : ℤ) (q q' : ℕ) (hq : 0 < q) (hq' : 0 < q')
    (h : p * (q' : ℤ) ≤ p' * (q : ℤ)) : floorPow2 p q ≤ floorPow2 p' q' := by
  by_cases hp : p < 0
  · rw [show floorPow2 p q = 0 from by rw [floorPow2, if_pos hp]]
    exact Nat.zero_le _
  · have hp' : ¬ p' < 0 := by
      intro hneg
      have h1 : (0 : ℤ) ≤ p * (q' : ℤ) :=
        mul_nonneg (not_lt.mp hp) (by exact_mod_cast Nat.zero_le q')
      have h2 : p' * (q : ℤ) < 0 :=
        mul_neg_of_neg_of_pos hneg (by exact_mod_cast hq)
      linarith
    have hnat : p.toNat * q' ≤ p'.toNat * q := by
      have e1 : ((p.toNat : ℤ)) = p := Int.toNat_of_nonneg (not_lt.mp hp)
      have e2 : ((p'.toNat : ℤ)) = p' := Int.toNat_of_nonneg (not_lt.mp hp')
      have : (p.toNat : ℤ) * (q' : ℤ) ≤ (p'.toNat : ℤ) * (q : ℤ) := by
        rw [e1, e2]; exact h
      exact_mod_cast this
    have hPm : (floorPow2 p q) ^ q ≤ 2 ^ p.toNat := floorPow2_spec p q hq hp
    have key : (floorPow2 p q) ^ q' ≤ 2 ^ p'.toNat := by
      have h2 : ((floorPow2 p q) ^ q) ^ q' ≤ (2 ^ p.toNat) ^ q' :=
        Nat.pow_le_pow_left hPm q'
      have h3 : ((floorPow2 p q) ^ q) ^ q' = ((floorPow2 p q) ^ q') ^ q := by
        rw [← pow_mul, ← pow_mul, Nat.mul_comm]
      have h4 : (2 ^ p.toNat) ^ q' = 2 ^ (p.toNat * q') := by rw [← pow_mul]
      have h5 : (2 : ℕ) ^ (p.toNat * q') ≤ 2 ^ (p'.toNat * q) :=
        Nat.pow_le_pow_right (by norm_num) hnat
      have h6 : (2 : ℕ) ^ (p'.toNat * q) = (2 ^ p'.toNat) ^ q := by rw [← pow_mul]
      have h7 : ((floorPow2 p q) ^ q') ^ q ≤ (2 ^ p'.toNat) ^ q := by
        calc ((floorPow2 p q) ^ q') ^ q = ((floorPow2 p q) ^ q) ^ q' := by
              rw [← pow_mul, ← pow_mul, Nat.mul_comm]
          _ ≤ (2 ^ p.toNat) ^ q' := Nat.pow_le_pow_left hPm q'
          _ = 2 ^ (p.toNat * q') := by rw [← pow_mul]
          _ ≤ 2 ^ (p'.toNat * q) := h5
          _ = (2 ^ p'.toNat) ^ q := by rw [← pow_mul]
      by_contra hc
      push_neg at hc
      have := Nat.pow_lt_pow_left hc (Nat.pos_iff_ne_zero.mp hq)
      omega
    have hb : floorPow2 p q ≤ 2 ^ (p'.toNat / q' + 1) :=
      floorPow2_le_bound _ _ _ hq' key
    rw [show floorPow2 p' q' =
      Nat.findGreatest (fun m => m ^ q' ≤ 2 ^ p'.toNat) (2 ^ (p'.toNat / q' + 1))
      from by rw [floorPow2, if_neg hp']]
    exact Nat.le_findGreatest hb key

lemma logspaceFloor_antitone (a b : ℤ) (n : ℕ) (h : b ≤ a) :
    (logspaceFloor a b n).Sorted (· ≥ ·) := by
  unfold logspaceFloor
  split_ifs with h0 h1m
  · simp
  · simp
  · have hn2 : 2 ≤ n := by omega
    have hq : 0 < n - 1 := by omega
    rw [List.Sorted, List.pairwise_map]
    apply List.Pairwise.imp ?_ (List.pairwise_lt_range n)
    intro k k' hkk'
    apply floorPow2_mono _ _ _ _ hq hq
    have hba : b - a ≤ 0 := by linarith
    have hmul : (b - a) * (k' : ℤ) ≤ (b - a) * (k : ℤ) :=
      mul_le_mul_of_nonpos_left (by exact_mod_cast le_of_lt hkk') hba
    have hpp : a * ((n : ℤ) - 1) + (b - a) * k' ≤ a * ((n : ℤ) - 1) + (b - a) * k := by
      linarith
    have hqpos : (0 : ℤ) ≤ ((n - 1 : ℕ) : ℤ) := by exact_mod_cast Nat.zero_le _
    exact mul_le_mul_of_nonneg_right hpp hqpos

lemma mem_dedupFirstAux : ∀ (l seen : List ℕ) (x : ℕ),
    x ∈ dedupFirstAux seen l ↔ x ∈ l ∧ x ∉ seen
  | [], seen, x => by simp [dedupFirstAux]
  | a :: l, seen, x => by
    by_cases h : a ∈ seen
    · rw [dedupFirstAux, if_pos h, mem_dedupFirstAux l seen x]
      simp only [List.mem_cons]
      constructor
      · rintro ⟨hl, hs⟩
        exact ⟨Or.inr hl, hs⟩
      · rintro ⟨hl | hl, hs⟩
        · exact absurd (hl ▸ h) hs
        · exact ⟨hl, hs⟩
    · rw [dedupFirstAux, if_neg h]
      simp only [List.mem_cons, mem_dedupFirstAux l (a :: seen) x, List.mem_cons]
      constructor
      · rintro (rfl | ⟨hl, hs⟩)
        · exact ⟨Or.inl rfl, h⟩
        · exact ⟨Or.inr hl, fun hx => hs (Or.inr hx)⟩
      · rintro ⟨rfl | hl, hs⟩
        · exact Or.inl rfl
        · by_cases hxa : x = a
          · exact Or.inl hxa
          · exact Or.inr ⟨hl, fun hx => (hx.elim hxa hs)⟩

lemma sublist_dedupFirstAux : ∀ (l seen : List ℕ), (dedupFirstAux seen l).Sublist l
  | [], seen => by simp [dedupFirstAux]
  | a :: l, seen => by
    by_cases h : a ∈ seen
    · rw [dedupFirstAux, if_pos h]
      exact (sublist_dedupFirstAux l seen).cons a
    · rw [dedupFirstAux, if_neg h]
      exact (sublist_dedupFirstAux l (a :: seen)).cons₂ a

lemma nodup_dedupFirstAux : ∀ (l seen : List ℕ), (dedupFirstAux seen l).Nodup
  | [], seen => by simp [dedupFirstAux]
  | a :: l, seen => by
    by_cases h : a ∈ seen
    · rw [dedupFirstAux, if_pos h]
      exact nodup_dedupFirstAux l seen
    · rw [dedupFirstAux, if_neg h]
      refine List.nodup_cons.mpr ⟨?_, nodup_dedupFirstAux l (a :: seen)⟩
      intro hmem
      exact ((mem_dedupFirstAux l (a :: seen) a).mp hmem).2 (List.mem_cons_self a seen)

lemma mem_dedupKeepFirst (l : List ℕ) (x : ℕ) : x ∈ dedupKeepFirst l ↔ x ∈ l := by
  rw [dedupKeepFirst, mem_dedupFirstAux]
  simp

lemma sorted_gt_dedupKeepFirst {l : List ℕ} (hl : l.Sorted (· ≥ ·)) :
    (dedupKeepFirst l).Sorted (· > ·) := by
  have hge : (dedupKeepFirst l).Sorted (· ≥ ·) :=
    hl.sublist (sublist_dedupFirstAux l [])
  have hnd : (dedupKeepFirst l).Nodup := nodup_dedupFirstAux l []
  exact (hge.and hnd).imp (fun h => lt_of_le_of_ne h.1 (Ne.symm h.2))

lemma eq_of_sorted_lt_of_mem_iff : ∀ {l1 l2 : List ℕ}, l1.Sorted (· < ·) →
    l2.Sorted (· < ·) → (∀ a, a ∈ l1 ↔ a ∈ l2) → l1 = l2
  | [], [], _, _, _ => rfl
  | [], b :: l2, _, _, h => by
    have := (h b).mpr (List.mem_cons_self b l2)
    simp at this
  | a :: l1, [], _, _, h => by
    have := (h a).mp (List.mem_cons_self a l1)
    simp at this
  | a :: l1, b :: l2, h1, h2, h => by
    have hab : a = b := by
      have ha := (h a).mp (List.mem_cons_self a l1)
      have hb := (h b).mpr (List.mem_cons_self b l2)
      rcases List.mem_cons.mp ha with h' | h'
      · exact h'
      · rcases List.mem_cons.mp hb with h'' | h''
        · exact h''.symm
        · have hba : b < a := (List.sorted_cons.mp h2).1 a h'
          have hab' : a < b := (List.sorted_cons.mp h1).1 b h''
          omega
    subst hab
    congr 1
    apply eq_of_sorted_lt_of_mem_iff (List.sorted_cons.mp h1).2 (List.sorted_cons.mp h2).2
    intro c
    constructor
    · intro hc
      have hmem : c ∈ a :: l2 := (h c).mp (List.mem_cons_of_mem a hc)
      rcases List.mem_cons.mp hmem with rfl | h'
      · have := (List.sorted_cons.mp h1).1 c hc
        omega
      · exact h'
    · intro hc
      have hmem : c ∈ a :: l1 := (h c).mpr (List.mem_cons_of_mem a hc)
      rcases List.mem_cons.mp hmem with rfl | h'
      · have := (List.sorted_cons.mp h2).1 c hc
        omega
      · exact h'

/-- C4 amended: when `min_box_size` does not exceed the (given or derived)
top exponent, the code's scale schedule equals the *reverse* of the schedule
described by the claim: same geometrically spaced, floored, deduplicated
values, but sorted ascending by `np.unique` instead of kept descending. -/
theorem C4_amended_theorem (shape : ℕ × ℕ × ℕ) (maxB : Option ℤ) (minB : ℤ)
    (nS : ℕ) (h : minB ≤ expTop shape maxB) :
    scalesFor shape maxB minB nS = (specScalesDescending shape maxB minB nS).reverse := by
  have hanti : (logspaceFloor (expTop shape maxB) minB nS).Sorted (· ≥ ·) :=
    logspaceFloor_antitone _ _ _ h
  apply eq_of_sorted_lt_of_mem_iff (uniqueAsc_sorted _)
  · exact List.pairwise_reverse.mpr (sorted_gt_dedupKeepFirst hanti)
  · intro a
    rw [mem_uniqueAsc, List.mem_reverse]
    unfold specScalesDescending
    rw [mem_dedupKeepFirst]

/-- Witness for C4 (amended) at the default parameters on an 8×8×8 shape. -/
theorem C4_witness :
    (1 : ℤ) ≤ expTop (8, 8, 8) none ∧
    scalesFor (8, 8, 8) none 1 20 = (specScalesDescending (8, 8, 8) none 1 20).reverse :=
  ⟨by decide, C4_amended_theorem (8, 8, 8) none 1 20 (by decide)⟩

lemma flatMap_congr_mem {α β : Type} (l : List α) (f g : α → List β)
    (h : ∀ a ∈ l, f a = g a) : l.flatMap f = l.flatMap g := by
  induction l with
  | nil => rfl
  | cons a l ih =>
    rw [List.flatMap_cons, List.flatMap_cons, h a (List.mem_cons_self a l),
      ih (fun b hb => h b (List.mem_cons_of_mem a hb))]

/-- C10: `fractal_dimension_3D` reads its input array only through
`array.shape` and `np.where(array > 0)`, so two arrays of the same shape
whose strictly-positive cells coincide produce identical results, whatever
the cell values are. -/
theorem C10_value_independence (g1 g2 : Grid) (p : FracParams)
    (hsh : g1.shape = g2.shape)
    (hpos : ∀ i < g1.shape.1, ∀ j < g1.shape.2.1, ∀ k < g1.shape.2.2,
      (0 < g1.cell i j k ↔ 0 < g2.cell i j k)) :
    fractalPairs g1 p = fractalPairs g2 p := by
  have hvox : voxelsOf g1 = voxelsOf g2 := by
    unfold voxelsOf
    rw [← hsh]
    apply flatMap_congr_mem
    intro i hi
    apply flatMap_congr_mem
    intro j hj
    apply filterMap_congr_mem
    intro k hk
    have hi2 : i < g1.shape.1 := List.mem_range.mp hi
    have hj2 : j < g1.shape.2.1 := List.mem_range.mp hj
    have hk2 : k < g1.shape.2.2 := List.mem_range.mp hk
    exact if_congr (hpos i hi2 j hj2 k hk2) rfl rfl
  unfold fractalPairs
  rw [hvox, hsh]

/-- A 2×2×2 boolean-like grid occupied at the origin. -/
def gridW1 : Grid := ⟨(2, 2, 2), fun i j k => if i = 0 ∧ j = 0 ∧ k = 0 then 1 else 0⟩

/-- The same occupancy pattern as `gridW1` with different cell values
(7 for occupied, -3 for background). -/
def gridW2 : Grid := ⟨(2, 2, 2), fun i j k => if i = 0 ∧ j = 0 ∧ k = 0 then 7 else -3⟩

/-- Witness for C10 on two concrete value-distinct grids with the same
positivity set. -/
theorem C10_witness :
    gridW1.shape = gridW2.shape ∧
    (∀ i < gridW1.shape.1, ∀ j < gridW1.shape.2.1, ∀ k < gridW1.shape.2.2,
      (0 < gridW1.cell i j k ↔ 0 < gridW2.cell i j k)) ∧
    fractalPairs gridW1 defaultParams = fractalPairs gridW2 defaultParams :=
  ⟨rfl, by decide, C10_value_independence gridW1 gridW2 defaultParams rfl (by decide)⟩
lemma minScaleFor_spec (scales Ns : List ℕ) (c : ℕ)
    (hlen : scales.length = Ns.length) (hc : c ∈ Ns) :
    (minScaleFor scales Ns c, c) ∈ scales.zip Ns ∧
      ∀ p ∈ scales.zip Ns, p.2 = c → minScaleFor scales Ns c ≤ p.1 := by
  obtain ⟨i, hi, hieq⟩ := List.mem_iff_getElem.mp hc
  have hi' : i < scales.length := by omega
  have hzlen : i < (scales.zip Ns).length := by
    rw [List.length_zip]
    omega
  have hpair : (scales.zip Ns)[i] = (scales[i], Ns[i]) := List.getElem_zip
  have hmem : (scales[i], c) ∈ (scales.zip Ns).filter (fun p => p.2 = c) := by
    rw [List.mem_filter]
    constructor
    · rw [show ((scales[i], c) : ℕ × ℕ) = (scales.zip Ns)[i] from by rw [hpair, hieq]]
      exact List.getElem_mem hzlen
    · simp
  have hmm : scales[i] ∈ ((scales.zip Ns).filter (fun p => p.2 = c)).map Prod.fst :=
    List.mem_map_of_mem Prod.fst hmem
  obtain ⟨m, hm⟩ := Option.isSome_iff_exists.mp (List.isSome_min?_of_mem hmm)
  have hmin : minScaleFor scales Ns c = m := by
    rw [minScaleFor, hm]
    rfl
  have hmmem : m ∈ ((scales.zip Ns).filter (fun p => p.2 = c)).map Prod.fst :=
    List.min?_mem (fun a b => min_choice a b) hm
  have hle : ∀ b ∈ ((scales.zip Ns).filter (fun p => p.2 = c)).map Prod.fst, m ≤ b :=
    fun b hb => (List.le_min?_iff (fun a b c => le_min_iff) hm).mp (le_refl m) b hb
  obtain ⟨q, hq, hqf⟩ := List.mem_map.mp hmmem
  have hq2 : q ∈ scales.zip Ns := (List.mem_filter.mp hq).1
  have hqc : q.2 = c := by
    have := (List.mem_filter.mp hq).2
    simpa using this
  constructor
  · rw [hmin]
    rw [show ((m, c) : ℕ × ℕ) = q from by
      rw [← hqf, ← hqc]]
    exact hq2
  · intro p hp hpc
    rw [hmin]
    apply hle
    apply List.mem_map_of_mem
    rw [List.mem_filter]
    exact ⟨hp, by simpa using hpc⟩

lemma mem_zip_map_snd {l : List ℕ} {f : ℕ → ℕ} :
    ∀ {p : ℕ × ℕ}, p ∈ l.zip (l.map f) → p.2 = f p.1 := by
  induction l with
  | nil => intro p hp; simp at hp
  | cons a l ih =>
    intro p hp
    rw [List.map_cons, List.zip_cons_cons, List.mem_cons] at hp
    rcases hp with rfl | hp
    · rfl
    · exact ih hp

lemma self_mem_zip_map {l : List ℕ} {f : ℕ → ℕ} {s : ℕ} (hs : s ∈ l) :
    (s, f s) ∈ l.zip (l.map f) := by
  induction l with
  | nil => simp at hs
  | cons a l ih =>
    rw [List.map_cons, List.zip_cons_cons, List.mem_cons]
    rcases List.mem_cons.mp hs with rfl | hs'
    · exact Or.inl rfl
    · exact Or.inr (ih hs')

lemma mem_map_zip_self {f : ℕ → ℕ} :
    ∀ {l : List ℕ} {p : ℕ × ℕ}, p ∈ (l.map f).zip l → ∃ c ∈ l, p = (f c, c) := by
  intro l
  induction l with
  | nil => intro p hp; simp at hp
  | cons a l ih =>
    intro p hp
    rw [List.map_cons, List.zip_cons_cons, List.mem_cons] at hp
    rcases hp with rfl | hp
    · exact ⟨a, List.mem_cons_self a l, rfl⟩
    · obtain ⟨c, hc, rfl⟩ := ih hp
      exact ⟨c, List.mem_cons_of_mem a hc, rfl⟩


lemma map_snd_zip_map {f : ℕ → ℕ} : ∀ (l : List ℕ),
    ((l.map f).zip l).map Prod.snd = l
  | [] => rfl
  | a :: l => by
    rw [List.map_cons, List.zip_cons_cons, List.map_cons, map_snd_zip_map l]

lemma reduceStep_def (scales Ns : List ℕ) :
    reduceStep scales Ns =
      (((uniqueAsc Ns).map (minScaleFor scales Ns)).take
        ((uniqueAsc Ns).filter (fun n => 0 < n)).length,
       (uniqueAsc Ns).filter (fun n => 0 < n)) := rfl

lemma logspaceFloor_ne_nil (a b : ℤ) (n : ℕ) (hn : n ≠ 0) : logspaceFloor a b n ≠ [] := by
  unfold logspaceFloor
  split_ifs with h0 h1
  · exact absurd h0 hn
  · simp
  · intro hcon
    have hl := congrArg List.length hcon
    simp at hl
    omega

lemma uniqueAsc_ne_nil {l : List ℕ} (hl : l ≠ []) : uniqueAsc l ≠ [] := by
  obtain ⟨a, ha⟩ := List.exists_mem_of_ne_nil l hl
  intro hcon
  have ham : a ∈ uniqueAsc l := mem_uniqueAsc.mpr ha
  rw [hcon] at ham
  simp at ham

/-- C1 amended: when every per-scale minimum box count is strictly positive,
the (scale, count) pairs passed to the fit are as the claim describes: the
fit succeeds, the counts are strictly positive, strictly ascending (hence at
most one pair per distinct count value), and each count is paired with the
smallest scale that produced it.  (When a count of zero occurs the pairing
is shifted instead — see `C1_counterexample`.) -/
theorem C1_amended_theorem (g : Grid) (p : FracParams)
    (hvox : voxelsOf g ≠ [])
    (hns : p.nSamples ≠ 0)
    (hsc : ∀ s ∈ scalesFor g.shape p.maxBoxSize p.minBoxSize p.nSamples, 0 < s)
    (hpos : ∀ s ∈ scalesFor g.shape p.maxBoxSize p.minBoxSize p.nSamples,
      0 < minCount (voxelsOf g) g.shape p.nOffsets s) :
    ∃ pts, fractalPairs g p = Except.ok pts ∧ pts ≠ [] ∧
      (pts.map Prod.snd).Sorted (· < ·) ∧
      ∀ pr ∈ pts,
        0 < pr.2 ∧
        pr.1 ∈ scalesFor g.shape p.maxBoxSize p.minBoxSize p.nSamples ∧
        minCount (voxelsOf g) g.shape p.nOffsets pr.1 = pr.2 ∧
        ∀ s ∈ scalesFor g.shape p.maxBoxSize p.minBoxSize p.nSamples,
          minCount (voxelsOf g) g.shape p.nOffsets s = pr.2 → pr.1 ≤ s := by
  obtain ⟨L, hL⟩ : ∃ L, L = scalesFor g.shape p.maxBoxSize p.minBoxSize p.nSamples :=
    ⟨_, rfl⟩
  obtain ⟨F, hF⟩ : ∃ F, F = minCount (voxelsOf g) g.shape p.nOffsets := ⟨_, rfl⟩
  rw [← hL, ← hF] at hpos
  rw [← hL] at hsc
  rw [← hL, ← hF]
  obtain ⟨Ns, hNs⟩ : ∃ Ns, Ns = L.map F := ⟨_, rfl⟩
  obtain ⟨u, hu⟩ : ∃ u, u = uniqueAsc Ns := ⟨_, rfl⟩
  have hposN : ∀ n ∈ Ns, 0 < n := by
    intro n hn
    rw [hNs] at hn
    obtain ⟨s, hs, rfl⟩ := List.mem_map.mp hn
    exact hpos s hs
  have hufilter : u.filter (fun n => 0 < n) = u := by
    apply List.filter_eq_self.mpr
    intro a ha
    have haN : a ∈ Ns := mem_uniqueAsc.mp (hu ▸ ha)
    simpa using hposN a haN
  have hred : reduceStep L Ns = (u.map (minScaleFor L Ns), u) := by
    rw [reduceStep_def, ← hu, hufilter]
    congr 1
    rw [← List.length_map u (minScaleFor L Ns)]
    exact List.take_length _
  have hLne : L ≠ [] := by
    rw [hL]
    unfold scalesFor
    exact uniqueAsc_ne_nil (logspaceFloor_ne_nil _ _ _ hns)
  have hune : u ≠ [] := by
    rw [hu]
    apply uniqueAsc_ne_nil
    rw [hNs]
    intro hcon
    exact hLne (List.map_eq_nil_iff.mp hcon)
  have h0L : ¬ (0 : ℕ) ∈ L := fun h => absurd (hsc 0 h) (lt_irrefl 0)
  have hok : fractalPairs g p = Except.ok ((u.map (minScaleFor L Ns)).zip u) := by
    unfold fractalPairs fractalPairsCore
    rw [← hL, ← hF]
    simp only
    rw [← hNs, if_neg h0L, if_neg hvox]
    simp only [hred]
    rw [if_neg hune]
  have hlen : L.length = Ns.length := by rw [hNs, List.length_map]
  refine ⟨(u.map (minScaleFor L Ns)).zip u, hok, ?_, ?_, ?_⟩
  · intro hcon
    have hlcon := congrArg List.length hcon
    rw [List.length_zip, List.length_map, min_self] at hlcon
    exact hune (List.length_eq_zero.mp hlcon)
  · rw [map_snd_zip_map u, hu]
    exact uniqueAsc_sorted Ns
  · intro pr hpr
    obtain ⟨c, hcu, rfl⟩ := mem_map_zip_self hpr
    have hcN : c ∈ Ns := mem_uniqueAsc.mp (hu ▸ hcu)
    obtain ⟨hmem, hmin⟩ := minScaleFor_spec L Ns c hlen hcN
    refine ⟨hposN c hcN, (List.of_mem_zip hmem).1, ?_, ?_⟩
    · revert hmem
      generalize minScaleFor L Ns c = m
      intro hmem
      rw [hNs] at hmem
      exact (mem_zip_map_snd hmem).symm
    · intro s hs hseq
      apply hmin (s, F s)
      · rw [hNs]
        exact self_mem_zip_map hs
      · exact hseq

/-- Witness for C1 (amended): the single-voxel 8×8×8 grid, whose per-scale
minimum counts are all 1 (positive). -/
theorem C1_witness :
    voxelsOf gridSingle ≠ [] ∧
    defaultParams.nSamples ≠ 0 ∧
    (∀ s ∈ scalesFor gridSingle.shape defaultParams.maxBoxSize defaultParams.minBoxSize
        defaultParams.nSamples, 0 < s) ∧
    (∀ s ∈ scalesFor gridSingle.shape defaultParams.maxBoxSize defaultParams.minBoxSize
        defaultParams.nSamples,
      0 < minCount (voxelsOf gridSingle) gridSingle.shape defaultParams.nOffsets s) ∧
    (∃ pts, fractalPairs gridSingle defaultParams = Except.ok pts ∧ pts ≠ [] ∧
      (pts.map Prod.snd).Sorted (· < ·) ∧
      ∀ pr ∈ pts,
        0 < pr.2 ∧
        pr.1 ∈ scalesFor gridSingle.shape defaultParams.maxBoxSize defaultParams.minBoxSize
          defaultParams.nSamples ∧
        minCount (voxelsOf gridSingle) gridSingle.shape defaultParams.nOffsets pr.1 = pr.2 ∧
        ∀ s ∈ scalesFor gridSingle.shape defaultParams.maxBoxSize defaultParams.minBoxSize
            defaultParams.nSamples,
          minCount (voxelsOf gridSingle) gridSingle.shape defaultParams.nOffsets s = pr.2 →
            pr.1 ≤ s) := by
  have hvox : voxelsOf gridSingle ≠ [] := by decide
  have hsc : ∀ s ∈ scalesFor gridSingle.shape defaultParams.maxBoxSize
      defaultParams.minBoxSize defaultParams.nSamples, 0 < s := by decide
  have hscales : scalesFor gridSingle.shape defaultParams.maxBoxSize
      defaultParams.minBoxSize defaultParams.nSamples = [2, 3, 4, 5, 6, 7, 8] := by decide
  have hpos : ∀ s ∈ scalesFor gridSingle.shape defaultParams.maxBoxSize
      defaultParams.minBoxSize defaultParams.nSamples,
      0 < minCount (voxelsOf gridSingle) gridSingle.shape defaultParams.nOffsets s := by
    rw [hscales]
    intro s hs
    fin_cases hs <;>
      · show 0 < minCount (voxelsOf gridSingle) gridSingle.shape 0 _
        rw [minCount_zero _ _ _ (by decide) (by decide) (by decide) (by decide)]
        decide
  exact ⟨hvox, by decide, hsc, hpos,
    C1_amended_theorem gridSingle defaultParams hvox (by decide) hsc hpos⟩

/-- Unfolding of the offset-0 3-D bin into nested `Option.bind`. -/
lemma natBoxIndex_eq (shape : ℕ × ℕ × ℕ) (s : ℕ) (v : ℕ × ℕ × ℕ) :
    natBoxIndex shape s v =
      (natBin shape.1 s v.1).bind (fun i =>
        (natBin shape.2.1 s v.2.1).bind (fun j =>
          (natBin shape.2.2 s v.2.2).map (fun k => (i, j, k)))) := by
  unfold natBoxIndex
  rcases natBin shape.1 s v.1 with _ | i <;>
    rcases natBin shape.2.1 s v.2.1 with _ | j <;>
      rcases natBin shape.2.2 s v.2.2 with _ | k <;> rfl

/-- If every bin produced by `g1` is the image under `h` of the bin produced
by `g2` on the same element, the number of distinct `g1`-bins is at most the
number of distinct `g2`-bins. -/
lemma dedup_length_le_of_map {α β γ : Type} [DecidableEq β] [DecidableEq γ]
    (l : List α) (g1 : α → Option β) (g2 : α → Option γ) (h : γ → β)
    (hmap : ∀ a ∈ l, ∀ b, g1 a = some b → ∃ c, g2 a = some c ∧ b = h c) :
    (l.filterMap g1).dedup.length ≤ (l.filterMap g2).dedup.length := by
  rw [← List.card_toFinset, ← List.card_toFinset]
  have hsub : (l.filterMap g1).toFinset ⊆ ((l.filterMap g2).toFinset).image h := by
    intro b hb
    rw [List.mem_toFinset, List.mem_filterMap] at hb
    obtain ⟨a, ha, hga⟩ := hb
    obtain ⟨c, hc, rfl⟩ := hmap a ha b hga
    rw [Finset.mem_image]
    refine ⟨c, ?_, rfl⟩
    rw [List.mem_toFinset, List.mem_filterMap]
    exact ⟨a, ha, hc⟩
  calc (l.filterMap g1).toFinset.card
      ≤ (((l.filterMap g2).toFinset).image h).card := Finset.card_le_card hsub
    _ ≤ (l.filterMap g2).toFinset.card := Finset.card_image_le

/-- When `s2` divides `s1`, the `s1`-bin of a coordinate counted at scale `s1`
is a function of its `s2`-bin: the coordinate is also counted at scale `s2`,
and the `s1`-bin is recovered from the `s2`-bin by rescaling the left edge. -/
lemma natBin_dvd (extent s1 s2 : ℕ) (hs1 : 0 < s1) (hs2 : 0 < s2) (hdvd : s2 ∣ s1)
    (x b1 : ℕ) (h : natBin extent s1 x = some b1) :
    ∃ b2, natBin extent s2 x = some b2 ∧
      b1 = min (s2 * (b2 - 1) / s1 + 1) (natM extent s1) := by
  obtain ⟨M1, hM1⟩ : ∃ M, natM extent s1 = M := ⟨_, rfl⟩
  obtain ⟨M2, hM2⟩ : ∃ M, natM extent s2 = M := ⟨_, rfl⟩
  rw [natBin, hM1] at h
  rw [natBin, hM2]
  rw [hM1]
  by_cases hx : x ≤ M1 * s1
  case neg =>
    rw [if_neg hx] at h
    exact absurd h (by simp)
  rw [if_pos hx] at h
  have hb1 : b1 = min (x / s1 + 1) M1 := (Option.some_inj.mp h).symm
  have hdvd1 : s2 ∣ M1 * s1 := Dvd.dvd.mul_left hdvd M1
  have hle1 : M1 * s1 ≤ extent - 1 := by
    rw [← hM1]
    exact Nat.div_mul_le_self _ _
  have hle2 : M1 * s1 ≤ M2 * s2 := by
    have hdc : M1 * s1 / s2 * s2 = M1 * s1 := Nat.div_mul_cancel hdvd1
    have hmono : M1 * s1 / s2 ≤ (extent - 1) / s2 := Nat.div_le_div_right hle1
    calc M1 * s1 = M1 * s1 / s2 * s2 := hdc.symm
      _ ≤ (extent - 1) / s2 * s2 := Nat.mul_le_mul_right s2 hmono
      _ = M2 * s2 := by rw [← hM2]; rfl
  have hx2 : x ≤ M2 * s2 := le_trans hx hle2
  refine ⟨min (x / s2 + 1) M2, by rw [if_pos hx2], ?_⟩
  rw [hb1]
  by_cases hA : x / s2 < M2
  · have hminA : min (x / s2 + 1) M2 = x / s2 + 1 := min_eq_left hA
    rw [hminA, Nat.add_sub_cancel]
    have hkey : s2 * (x / s2) / s1 = x / s1 := by
      obtain ⟨c, rfl⟩ := hdvd
      rw [Nat.mul_div_mul_left _ _ hs2, Nat.div_div_eq_div_mul]
    rw [hkey]
  · have hxdiv : x / s2 ≤ M2 := by
      have hmono := Nat.div_le_div_right (c := s2) hx2
      rwa [Nat.mul_div_cancel _ hs2] at hmono
    have hxM2 : x / s2 = M2 := by omega
    have hge : M2 * s2 ≤ x := (Nat.le_div_iff_mul_le hs2).mp (le_of_eq hxM2.symm)
    have hxeq : x = M1 * s1 := by omega
    have heq12 : M1 * s1 = M2 * s2 := by omega
    have hxs1 : x / s1 = M1 := by
      rw [hxeq]
      exact Nat.mul_div_cancel M1 hs1
    rw [hxs1, hxM2]
    have hminB : min (M1 + 1) M1 = M1 := min_eq_right (by omega)
    have hminB2 : min (M2 + 1) M2 = M2 := min_eq_right (by omega)
    rw [hminB, hminB2]
    rcases Nat.eq_zero_or_pos M2 with hM20 | hM2pos
    · subst hM20
      have hzero : M1 * s1 = 0 := by omega
      have hM10 : M1 = 0 := by
        rcases Nat.mul_eq_zero.mp hzero with h' | h'
        · exact h'
        · omega
      rw [hM10]
      simp
    · obtain ⟨m, rfl⟩ : ∃ m, M2 = m + 1 := ⟨M2 - 1, by omega⟩
      have hh : m * s2 + s2 = M1 * s1 := by
        have hh0 : (m + 1) * s2 = M1 * s1 := heq12.symm
        rw [add_mul, one_mul] at hh0
        exact hh0
      have hM1pos : 0 < M1 := by
        rcases Nat.eq_zero_or_pos M1 with h0 | hp
        · exfalso
          rw [h0] at heq12
          simp at heq12
          omega
        · exact hp
      have hms2 : s2 * (m + 1 - 1) = M1 * s1 - s2 := by
        have hsub2 : m + 1 - 1 = m := by omega
        rw [hsub2, mul_comm]
        omega
      rw [hms2]
      have hs2s1 : s2 ≤ s1 := Nat.le_of_dvd hs1 hdvd
      have hdiveq : (M1 * s1 - s2) / s1 = M1 - 1 := by
        have hlow : (M1 - 1) * s1 ≤ M1 * s1 - s2 := by
          rw [Nat.sub_mul, one_mul]
          exact Nat.sub_le_sub_left hs2s1 _
        have hs1le : s1 ≤ M1 * s1 := by
          calc s1 = 1 * s1 := (one_mul s1).symm
            _ ≤ M1 * s1 := Nat.mul_le_mul_right s1 hM1pos
        have hhigh : M1 * s1 - s2 < (M1 - 1 + 1) * s1 := by
          rw [Nat.sub_add_cancel hM1pos]
          omega
        exact Nat.div_eq_of_lt_le hlow hhigh
      rw [hdiveq, Nat.sub_add_cancel hM1pos, min_self]

/-- The 3-D version of `natBin_dvd`: at a dividing pair of scales, the
`s1`-box of a counted voxel is a function of its `s2`-box. -/
lemma natBoxIndex_dvd (shape : ℕ × ℕ × ℕ) (s1 s2 : ℕ) (hs1 : 0 < s1) (hs2 : 0 < s2)
    (hdvd : s2 ∣ s1) (v : ℕ × ℕ × ℕ) (b : ℕ × ℕ × ℕ)
    (h : natBoxIndex shape s1 v = some b) :
    ∃ c, natBoxIndex shape s2 v = some c ∧
      b = (min (s2 * (c.1 - 1) / s1 + 1) (natM shape.1 s1),
           min (s2 * (c.2.1 - 1) / s1 + 1) (natM shape.2.1 s1),
           min (s2 * (c.2.2 - 1) / s1 + 1) (natM shape.2.2 s1)) := by
  rw [natBoxIndex_eq] at h
  rcases hv1 : natBin shape.1 s1 v.1 with _ | b1
  · rw [hv1] at h; exact absurd h (by simp)
  rcases hv2 : natBin shape.2.1 s1 v.2.1 with _ | b2
  · rw [hv1, hv2] at h; exact absurd h (by simp)
  rcases hv3 : natBin shape.2.2 s1 v.2.2 with _ | b3
  · rw [hv1, hv2, hv3] at h; exact absurd h (by simp)
  rw [hv1, hv2, hv3] at h
  have hb : (some (b1, b2, b3) : Option (ℕ × ℕ × ℕ)) = some b := h
  have hb2 : b = (b1, b2, b3) := (Option.some_inj.mp hb).symm
  obtain ⟨c1, hc1, he1⟩ := natBin_dvd shape.1 s1 s2 hs1 hs2 hdvd v.1 b1 hv1
  obtain ⟨c2, hc2, he2⟩ := natBin_dvd shape.2.1 s1 s2 hs1 hs2 hdvd v.2.1 b2 hv2
  obtain ⟨c3, hc3, he3⟩ := natBin_dvd shape.2.2 s1 s2 hs1 hs2 hdvd v.2.2 b3 hv3
  refine ⟨(c1, c2, c3), ?_, ?_⟩
  · rw [natBoxIndex_eq, hc1, hc2, hc3]; rfl
  · rw [hb2, he1, he2, he3]

/-- C5 amended: with offsets disabled (`n_offsets = 0`, a single zero offset),
the per-scale box count of `fractal_dimension_3D` is non-decreasing as the
scale decreases along nested scales: if the smaller positive scale `s2`
divides the larger scale `s1`, then the count at `s1` is at most the count at
`s2`, for every voxel list and positive shape.  (For non-nested scale pairs
monotonicity fails, as shown by the counterexample above: the bin edges of
`np.arange(0, extent, scale)` stop before the axis extent, so a voxel can be
counted at one scale and fall outside the binned range at a smaller scale.) -/
theorem C5_amended_theorem (voxels : List (ℕ × ℕ × ℕ)) (shape : ℕ × ℕ × ℕ)
    (s1 s2 : ℕ) (hs1 : 0 < s1) (hs2 : 0 < s2) (hdvd : s2 ∣ s1)
    (h1 : 0 < shape.1) (h2 : 0 < shape.2.1) (h3 : 0 < shape.2.2) :
    minCount voxels shape 0 s1 ≤ minCount voxels shape 0 s2 := by
  rw [minCount_zero voxels shape s1 hs1 h1 h2 h3,
      minCount_zero voxels shape s2 hs2 h1 h2 h3]
  unfold natBoxCount
  exact dedup_length_le_of_map voxels (natBoxIndex shape s1) (natBoxIndex shape s2)
    (fun c => (min (s2 * (c.1 - 1) / s1 + 1) (natM shape.1 s1),
               min (s2 * (c.2.1 - 1) / s1 + 1) (natM shape.2.1 s1),
               min (s2 * (c.2.2 - 1) / s1 + 1) (natM shape.2.2 s1)))
    (fun v _ b hb => natBoxIndex_dvd shape s1 s2 hs1 hs2 hdvd v b hb)

/-- Witness for the amended C5 claim: on the two-voxel 8×8×8 grid, the box
count at scale 4 is at most the box count at scale 2. -/
theorem C5_witness :
    0 < 4 ∧ 0 < 2 ∧ 2 ∣ 4 ∧
      minCount (voxelsOf gridTwo) gridTwo.shape 0 4 ≤
        minCount (voxelsOf gridTwo) gridTwo.shape 0 2 :=
  ⟨by decide, by decide, by decide,
    C5_amended_theorem (voxelsOf gridTwo) gridTwo.shape 4 2 (by decide) (by decide)
      (by decide) (by decide) (by decide) (by decide)⟩
